import Mathlib

set_option linter.unusedVariables false

/-!
Verification of the per-trigger buffering/matching/dispatch engine of the
`tea` program (`tea.go`).  Bytes are modelled as `Nat` (the newline byte is
10, carriage return 13, the dollar sign 36, braces 123/125).  A Go
`bytes.Buffer` holding the unmatched stream data is modelled by the list of
its unread bytes: `Buffer.Write` appends at the tail, `Buffer.Next n`
returns the first `n` bytes and drops them from the head, `Buffer.Bytes`
is the list itself.

The compiled regular expression is external to this repository
(`regexp.Regexp`); its single operation used by the engine,
`re.FindSubmatchIndex`, is modelled by an abstract function
`Find := List Nat → Option MatchIdx` returning the overall span and the
capture-group spans, exactly the information carried by the `[]int` of
index pairs in Go (`-1` pairs become `none`).
-/

namespace Tea

/-- Model of the `[]int` returned by `re.FindSubmatchIndex`: `span` is the
pair `m[0], m[1]` (overall match, always present on a successful match),
`groups` holds the capture-group pairs `m[2i], m[2i+1]` for `i ≥ 1`, with
`none` for a group that did not participate (`-1` in Go). -/
structure MatchIdx where
  span : Nat × Nat
  groups : List (Option (Nat × Nat))
deriving DecidableEq, Repr

/-- The list of index pairs, position `i` holding group `i`'s span
(position 0 is the overall match).  Mirrors the layout of the Go slice. -/
def MatchIdx.idx (m : MatchIdx) : List (Option (Nat × Nat)) :=
  some m.span :: m.groups

/-- The matching oracle: `re.FindSubmatchIndex` of the trigger's compiled
pattern, as a function of the byte region searched. -/
def Find : Type := List Nat → Option MatchIdx

/-- Index of the first newline byte in a byte list;
models `bytes.IndexByte(buf, '\n')` (`none` for Go's `-1`). -/
def nlIdx : List Nat → Option Nat
  | [] => none
  | b :: bs => if b = 10 then some 0 else (nlIdx bs).map (· + 1)

/-- Line-mode scan of `hasMatch` (`tea.go` lines 205-224): repeatedly take
the bytes up to the next newline out of the buffer (the newline is consumed
but excluded from the line), return the first line the pattern matches; a
trailing segment with no newline is tested only when `closing`.  Returns
the optional `(match, line)` pair together with the remaining buffer. -/
def scanLines (find : Find) (closing : Bool) (s : List Nat) :
    Option (MatchIdx × List Nat) × List Nat :=
  if hs : s = [] then (none, s)
  else
    match nlIdx s with
    | some i =>
      match find (s.take i) with
      | some m => (some (m, s.take i), s.drop (i + 1))
      | none => scanLines find closing (s.drop (i + 1))
    | none =>
      if closing then
        match find s with
        | some m => (some (m, s), [])
        | none => (none, [])
      else (none, s)
termination_by s.length
decreasing_by
  all_goals
    have h0 : 0 < s.length := List.length_pos.mpr hs
    simp only [List.length_drop]
    omega

/-- `hasMatch` (`tea.go` lines 191-224).  In multi-line mode the whole
buffer is searched; on a match the buffer is consumed through the match's
end offset `m[1]` (`t.buf.Next(m[1])`), on no match any excess over the
`-buf` size cap is dropped from the head.  In line mode, `scanLines`. -/
def hasMatch (find : Find) (multi : Bool) (cap : Nat) (closing : Bool)
    (buf : List Nat) : Option (MatchIdx × List Nat) × List Nat :=
  if multi then
    match find buf with
    | none =>
      (none, if buf.length > cap then buf.drop (buf.length - cap) else buf)
    | some m => (some (m, buf.take m.span.2), buf.drop m.span.2)
  else scanLines find closing buf

/-- The dispatch loop of `Write` (`tea.go` lines 252-259):
`for t.dispatch(false) {}`.  The Go loop has no fuel; the model returns
`none` when `fuel` runs out, and `some (dispatches, buffer)` when the
matcher reports no match, listing the `(match, text)` pairs handed off to
`fire`, in order. -/
def writeLoop (find : Find) (multi : Bool) (cap : Nat) :
    Nat → List Nat → List (MatchIdx × List Nat) →
    Option (List (MatchIdx × List Nat) × List Nat)
  | 0, _, _ => none
  | fuel + 1, buf, acc =>
    match hasMatch find multi cap false buf with
    | (none, buf') => some (acc, buf')
    | (some d, buf') => writeLoop find multi cap fuel buf' (acc ++ [d])

/-- `trigger.Write` (`tea.go` lines 252-259): append the chunk to the
buffer, then run the dispatch loop.  `buf.length + 1` steps of fuel are
exact: every terminating run of the Go loop performs at most one dispatch
per buffer byte (a dispatch that consumes no byte leaves the buffer, and
hence the pure matcher's answer, unchanged, so the Go loop then never
terminates and the model answers `none`). -/
def triggerWrite (find : Find) (multi : Bool) (cap : Nat)
    (buf chunk : List Nat) : Option (List (MatchIdx × List Nat) × List Nat) :=
  writeLoop find multi cap ((buf ++ chunk).length + 1) (buf ++ chunk) []

/-- The complete (newline-terminated) lines at the head of a buffer, in
order, with the terminators excluded: the successive lines extracted by the
line-mode scan. -/
def completeLines (s : List Nat) : List (List Nat) :=
  if hs : s = [] then []
  else
    match nlIdx s with
    | some i => s.take i :: completeLines (s.drop (i + 1))
    | none => []
termination_by s.length
decreasing_by
  all_goals
    have h0 : 0 < s.length := List.length_pos.mpr hs
    simp only [List.length_drop]
    omega

/-- The trailing bytes of a buffer after its last newline (the final
unterminated segment; empty when the buffer ends in a newline). -/
def lineTail (s : List Nat) : List Nat :=
  if hs : s = [] then []
  else
    match nlIdx s with
    | some i => lineTail (s.drop (i + 1))
    | none => s
termination_by s.length
decreasing_by
  all_goals
    have h0 : 0 < s.length := List.length_pos.mpr hs
    simp only [List.length_drop]
    omega

/-- Reassemble a buffer from a list of (newline-free) lines and a trailing
segment, re-inserting the terminators. -/
def rejoin (ls : List (List Nat)) (t : List Nat) : List Nat :=
  ls.foldr (fun l acc => l ++ 10 :: acc) t

/-- First line of `ls` that the pattern matches, together with the match
and the lines after it. -/
def lineSearch (find : Find) : List (List Nat) →
    Option (MatchIdx × List Nat × List (List Nat))
  | [] => none
  | l :: ls =>
    match find l with
    | some m => some (m, l, ls)
    | none => lineSearch find ls

/-- One `(match, line)` pair per line satisfying the pattern, in order. -/
def lineDispatches (find : Find) (ls : List (List Nat)) :
    List (MatchIdx × List Nat) :=
  ls.filterMap (fun l => (find l).map (fun m => (m, l)))

/-- A matching oracle all of whose matches consume at least one byte
(`m[1] > 0`) and report in-range offsets.  Every pattern that cannot match
the empty string yields such an oracle (`FindSubmatchIndex` returns valid
indices, and a nonempty leftmost match has a positive end offset). -/
def ProgressiveFind (find : Find) : Prop :=
  ∀ s m, find s = some m → 0 < m.span.2 ∧ m.span.2 ≤ s.length

/-- Termination of `Write`'s dispatch loop on a given buffer: some amount
of fuel makes the model return (the Go loop, which has no fuel, returns
exactly when this holds, since `find` is a pure function of the buffer). -/
def LoopTerminates (find : Find) (multi : Bool) (cap : Nat)
    (buf : List Nat) : Prop :=
  ∃ fuel r, writeLoop find multi cap fuel buf [] = some r

/-- The oracle of a multi-line-capable pattern that matches the empty
string — the real pattern `(?m)^` is one: on every input (the empty input
included) `FindSubmatchIndex` returns `[0, 0]`. -/
def emptyFind : Find := fun _ => some ⟨(0, 0), []⟩

/-- Runtime state of one trigger's dispatch slot: `slot` is the number of
tokens in the `sync` channel (`make(chan struct{}, 1)` — capacity 1, so a
send completes only when `slot = 0`), `running` the number of `fire`
executions currently outstanding. -/
structure SlotState where
  slot : Nat
  running : Nat
deriving DecidableEq, Repr

/-- The two synchronization events of `dispatch` (`tea.go` lines 263-274). -/
inductive SlotEv where
  | spawn
  | finish
deriving DecidableEq, Repr

/-- Synchronization transitions of `dispatch`: `spawn` is
`t.sync <- struct{}{}` completing (possible only while the capacity-1
channel is empty) immediately followed by `go func { t.fire(...) ... }`,
which puts one more action in flight; `finish` is a running `fire`
returning, upon which its goroutine executes `<-t.sync` (which needs a
token in the channel), releasing the slot. -/
inductive SlotStep : SlotState → SlotEv → SlotState → Prop where
  | spawn (s : SlotState) (h : s.slot = 0) :
      SlotStep s .spawn ⟨1, s.running + 1⟩
  | finish (s : SlotState) (h1 : 1 ≤ s.slot) (h2 : 1 ≤ s.running) :
      SlotStep s .finish ⟨s.slot - 1, s.running - 1⟩

/-- Slot states reachable from the initial state of a freshly parsed
trigger (empty channel, no action running). -/
inductive SlotReach : SlotState → Prop where
  | init : SlotReach ⟨0, 0⟩
  | step {s s' : SlotState} {e : SlotEv} (hr : SlotReach s)
      (hs : SlotStep s e s') : SlotReach s'

/-- ASCII decimal digit, as used by Go's `extract` number parse. -/
def isDigitByte (c : Nat) : Bool := 48 ≤ c && c ≤ 57

/-- Character allowed in a `$` placeholder name (Go: letter, digit or
underscore; restricted here to the ASCII range the templates use). -/
def isNameByte (c : Nat) : Bool :=
  (48 ≤ c && c ≤ 57) || (65 ≤ c && c ≤ 90) || (97 ≤ c && c ≤ 122) || c == 95

/-- The capture-group number denoted by a placeholder name, per the number
parse at the end of Go's `extract`: the decimal value when the name is all
digits with no leading zero, `-1` otherwise (a named group). -/
def numOf (name : List Nat) : Int :=
  if name.all isDigitByte ∧ ¬(name.head? = some 48 ∧ 1 < name.length) then
    ((name.foldl (fun a c => a * 10 + (c - 48)) 0 : Nat) : Int)
  else -1

/-- Go's `extract` (the `regexp.Regexp.expand` helper): parse `name` or
`{name}` at the head of the text following a `$`, returning the name, its
numeric value (or `-1`), and the rest of the template; `none` when
malformed (empty name, or unclosed brace). -/
def extract (str : List Nat) : Option (List Nat × Int × List Nat) :=
  match str with
  | [] => none
  | c :: s =>
    if c = 123 then
      if s.takeWhile isNameByte = [] then none
      else if (s.drop (s.takeWhile isNameByte).length).head? = some 125 then
        some (s.takeWhile isNameByte, numOf (s.takeWhile isNameByte),
          (s.drop (s.takeWhile isNameByte).length).tail)
      else none
    else
      if (c :: s).takeWhile isNameByte = [] then none
      else
        some ((c :: s).takeWhile isNameByte,
          numOf ((c :: s).takeWhile isNameByte),
          (c :: s).drop (((c :: s).takeWhile isNameByte).length))

/-- Go's `strings.Cut(template, "$")`: the text before the first `$` and
the text after it (`none` when the template has no `$`). -/
def splitDollar : List Nat → Option (List Nat × List Nat)
  | [] => none
  | c :: cs =>
    if c = 36 then some ([], cs)
    else (splitDollar cs).map (fun pr => (c :: pr.1, pr.2))

/-- The byte slice `src[p.1:p.2]`. -/
def slice (src : List Nat) (p : Nat × Nat) : List Nat :=
  (src.take p.2).drop p.1

/-- Substitution for a numbered group (Go: `2*num+1 < len(match) &&
match[2*num] >= 0` guards `src[match[2*num]:match[2*num+1]]`): the group's
text when group `k` exists and participated, empty otherwise. -/
def numSub (src : List Nat) (idx : List (Option (Nat × Nat))) (k : Nat) :
    List Nat :=
  match idx[k]? with
  | some (some p) => slice src p
  | _ => []

/-- Substitution for a named group: Go's loop over `re.SubexpNames()`
walks the names and the match pairs in lockstep and substitutes the first
group carrying the name that exists and participated; empty when none
does. -/
def namedSub (src : List Nat) (name : List Nat) :
    List (List Nat) → List (Option (Nat × Nat)) → List Nat
  | [], _ => []
  | n :: ns, idx =>
    if n = name then
      match idx.head? with
      | some (some p) => slice src p
      | _ => namedSub src name ns idx.tail
    else namedSub src name ns idx.tail

/-- Go's `regexp.Regexp.expand` on one argument template
(`re.ExpandString(nil, arg, text, m)` in `fire`): text before a `$` is
copied literally, `$$` emits `$`, a well-formed placeholder is replaced by
the designated group's text, and a malformed `$` is copied literally.  No
other interpretation is applied to the template. -/
def expand (names : List (List Nat)) (src : List Nat) (m : MatchIdx)
    (template : List Nat) : List Nat :=
  match h : splitDollar template with
  | none => template
  | some (before, after) =>
    if after.head? = some 36 then
      before ++ 36 :: expand names src m after.tail
    else
      match h2 : extract after with
      | none => before ++ 36 :: expand names src m after
      | some (name, num, rest) =>
        before ++
          (if 0 ≤ num then numSub src m.idx num.toNat
           else namedSub src name names m.idx) ++
          expand names src m rest
termination_by template.length
decreasing_by
  all_goals
    have key : ∀ (t b a : List Nat), splitDollar t = some (b, a) →
        t.length = b.length + a.length + 1 := by
      intro t
      induction t with
      | nil => intro b a hba; simp [splitDollar] at hba
      | cons c cs ih =>
        intro b a hba
        by_cases hc : c = 36
        · subst hc
          simp only [splitDollar, if_pos rfl, Option.some.injEq,
            Prod.mk.injEq] at hba
          obtain ⟨rfl, rfl⟩ := hba
          simp
        · simp only [splitDollar, if_neg hc, Option.map_eq_some'] at hba
          obtain ⟨⟨b', a'⟩, hba', hkey⟩ := hba
          rw [Prod.mk.injEq] at hkey
          obtain ⟨rfl, rfl⟩ := hkey
          have := ih b' a' hba'
          simp [this]
          omega
  · have := key _ _ _ h
    simp only [List.length_tail]
    omega
  · have := key _ _ _ h
    omega
  · have hk := key _ _ _ h
    have key2 : ∀ (str nm : List Nat) (k : Int) (r : List Nat),
        extract str = some (nm, k, r) → r.length ≤ str.length := by
      intro str nm k r hx
      cases str with
      | nil => simp [extract] at hx
      | cons c s =>
        simp only [extract] at hx
        by_cases hc : c = 123
        · rw [if_pos hc] at hx
          by_cases hn : s.takeWhile isNameByte = []
          · rw [if_pos hn] at hx; exact absurd hx (by simp)
          · rw [if_neg hn] at hx
            by_cases h125 :
                (s.drop (s.takeWhile isNameByte).length).head? = some 125
            · rw [if_pos h125] at hx
              simp only [Option.some.injEq, Prod.mk.injEq] at hx
              obtain ⟨-, -, rfl⟩ := hx
              simp only [List.length_tail, List.length_drop, List.length_cons]
              omega
            · rw [if_neg h125] at hx; exact absurd hx (by simp)
        · rw [if_neg hc] at hx
          by_cases hn : (c :: s).takeWhile isNameByte = []
          · rw [if_pos hn] at hx; exact absurd hx (by simp)
          · rw [if_neg hn] at hx
            simp only [Option.some.injEq, Prod.mk.injEq] at hx
            obtain ⟨-, -, rfl⟩ := hx
            simp only [List.length_drop, List.length_cons]
            omega
    have := key2 _ _ _ _ h2
    omega

/-- The action half of a trigger (the `cmd`, `args`, `isPipe` fields of
`trigger`, `tea.go` lines 161-170): the command name (leading `:`
stripped), the unexpanded argument templates, and whether the match text
is piped to the command's standard input. -/
structure ActionTemplate where
  cmd : List Nat
  args : List (List Nat)
  isPipe : Bool
deriving DecidableEq, Repr

/-- The subprocess prepared by `fire` (`tea.go` lines 228-248): command,
fully substituted argument list, and the optional stdin payload. -/
structure ProcSpec where
  cmd : List Nat
  args : List (List Nat)
  stdin : Option (List Nat)
deriving DecidableEq, Repr

/-- `fire` (`tea.go` lines 228-248) up to the external process launch:
every argument template is expanded against the match, and in pipe mode
the raw match text becomes the stdin payload
(`proc.Stdin = strings.NewReader(text)`).  The process's success or
failure is only logged (`log.Printf`), never returned. -/
def fire (t : ActionTemplate) (names : List (List Nat)) (m : MatchIdx)
    (text : List Nat) : ProcSpec :=
  { cmd := t.cmd
    args := t.args.map (expand names text m)
    stdin := if t.isPipe then some text else none }

/-- Static configuration of one trigger together with an oracle for the
success or failure of each external action execution (`proc.Run()`'s
error).  The outcome is only logged by `fire`; no control path of the
engine reads it. -/
structure TrigConf where
  find : Find
  multi : Bool
  actionOk : MatchIdx × List Nat → Bool

/-- Runtime state of one trigger inside the copy loop: configuration,
buffer, and the log of dispatched actions with their outcomes. -/
structure TrigState where
  conf : TrigConf
  buf : List Nat
  log : List ((MatchIdx × List Nat) × Bool)

/-- One `Write` call on one trigger (`none` when its dispatch loop
diverges).  `bytes.Buffer.Write` never fails, so the only way a trigger
can break the copy is by not returning. -/
def trigStep (cap : Nat) (t : TrigState) (chunk : List Nat) :
    Option TrigState :=
  (triggerWrite t.conf.find t.conf.multi cap t.buf chunk).map fun r =>
    { t with
      buf := r.2
      log := t.log ++ r.1.map (fun d => (d, t.conf.actionOk d)) }

/-- `io.MultiWriter`'s visit of the triggers with one chunk, in order. -/
def teeStep (cap : Nat) (chunk : List Nat) :
    List TrigState → Option (List TrigState)
  | [] => some []
  | t :: ts =>
    match trigStep cap t chunk with
    | none => none
    | some t' => (teeStep cap chunk ts).map (t' :: ·)

/-- The copy loop of `main` (`tea.go` line 99:
`io.Copy(io.MultiWriter(out...), ...)` with `out = [stdout, triggers...]`):
each chunk is written to standard output first, then to every trigger.
Returns the bytes written to standard output, the trigger states, and
whether the copy ran to completion (`false` when a trigger's dispatch loop
diverged, leaving all remaining chunks uncopied). -/
def copyRun (cap : Nat) : List TrigState → List Nat → List (List Nat) →
    List Nat × List TrigState × Bool
  | ts, out, [] => (out, ts, true)
  | ts, out, c :: cs =>
    match teeStep cap c ts with
    | some ts' => copyRun cap ts' (out ++ c) cs
    | none => (out ++ c, ts, false)

/-- A trigger configured with a multi-line-capable pattern matching the
empty string (such as the real pattern `(?m)^`), fresh buffer and log. -/
def emptyTrig : TrigState := ⟨⟨emptyFind, true, fun _ => true⟩, [], []⟩

/-- A pipe-mode action template whose single argument template is `$0`
(bytes 36, 48). -/
def dollarZeroPipe : ActionTemplate := ⟨[99], [[36, 48]], true⟩

example :
    hasMatch (fun _ => none) true 2 false [1, 2, 3] = (none, [2, 3]) := by
  decide

example :
    scanLines (fun s => if s = [97] then some ⟨(0, 1), []⟩ else none) false
      [98, 10, 97, 10, 99] =
    (some (⟨(0, 1), []⟩, [97]), [99]) := by
  simp [scanLines, nlIdx]

theorem nlIdx_eq_none {s : List Nat} : nlIdx s = none ↔ (10 : Nat) ∉ s := by
  induction s with
  | nil => simp [nlIdx]
  | cons b bs ih =>
    by_cases hb : b = 10
    · subst hb; simp [nlIdx]
    · simp only [nlIdx, if_neg hb, List.mem_cons, not_or]
      rw [Option.map_eq_none', ih]
      exact ⟨fun h => ⟨fun h' => hb h'.symm, h⟩, fun h => h.2⟩

theorem nlIdx_append_nl {l : List Nat} (rest : List Nat)
    (h : (10 : Nat) ∉ l) : nlIdx (l ++ 10 :: rest) = some l.length := by
  induction l with
  | nil => simp [nlIdx]
  | cons b bs ih =>
    have hb : b ≠ 10 := fun hb => h (hb ▸ List.mem_cons_self b bs)
    have hbs : (10 : Nat) ∉ bs := fun hm => h (List.mem_cons_of_mem _ hm)
    simp [nlIdx, hb, ih hbs]

theorem nlIdx_some {s : List Nat} {i : Nat} (h : nlIdx s = some i) :
    i < s.length ∧ (10 : Nat) ∉ s.take i ∧ s[i]? = some 10 := by
  induction s generalizing i with
  | nil => simp [nlIdx] at h
  | cons b bs ih =>
    by_cases hb : b = 10
    · subst hb
      simp [nlIdx] at h
      subst h
      simp
    · simp only [nlIdx, if_neg hb, Option.map_eq_some'] at h
      obtain ⟨j, hj, rfl⟩ := h
      obtain ⟨h1, h2, h3⟩ := ih hj
      refine ⟨by simpa using h1, ?_, by simpa using h3⟩
      intro hm
      rcases List.mem_cons.mp (by simpa using hm) with h10 | h10
      · exact hb h10.symm
      · exact h2 h10

theorem nlIdx_split {s : List Nat} {i : Nat} (h : nlIdx s = some i) :
    s = s.take i ++ 10 :: s.drop (i + 1) := by
  obtain ⟨h1, -, h3⟩ := nlIdx_some h
  have h4 : s.drop i = 10 :: s.drop (i + 1) := by
    rw [List.drop_eq_getElem_cons h1]
    have : s[i] = 10 := by
      have := List.getElem?_eq_getElem h1
      rw [this] at h3
      exact Option.some.injEq _ _ ▸ (by simpa using h3)
    rw [this]
  calc s = s.take i ++ s.drop i := (List.take_append_drop i s).symm
    _ = s.take i ++ 10 :: s.drop (i + 1) := by rw [h4]

theorem completeLines_of_none {s : List Nat} (h : nlIdx s = none) :
    completeLines s = [] := by
  rw [completeLines]
  split
  · rfl
  · simp [h]

theorem completeLines_of_some {s : List Nat} {i : Nat}
    (h : nlIdx s = some i) :
    completeLines s = s.take i :: completeLines (s.drop (i + 1)) := by
  have hs : s ≠ [] := by rintro rfl; simp [nlIdx] at h
  rw [completeLines]
  split
  · exact absurd (by assumption) hs
  · simp [h]

theorem lineTail_of_none {s : List Nat} (h : nlIdx s = none) :
    lineTail s = s := by
  rw [lineTail]
  split
  · simp [*]
  · simp [h]

theorem lineTail_of_some {s : List Nat} {i : Nat} (h : nlIdx s = some i) :
    lineTail s = lineTail (s.drop (i + 1)) := by
  have hs : s ≠ [] := by rintro rfl; simp [nlIdx] at h
  rw [lineTail]
  split
  · exact absurd (by assumption) hs
  · simp [h]

theorem rejoin_decomp (s : List Nat) :
    rejoin (completeLines s) (lineTail s) = s := by
  rcases h : nlIdx s with - | i
  · rw [completeLines_of_none h, lineTail_of_none h]
    rfl
  · rw [completeLines_of_some h, lineTail_of_some h]
    have ih := rejoin_decomp (s.drop (i + 1))
    show s.take i ++ 10 :: rejoin (completeLines (s.drop (i + 1)))
        (lineTail (s.drop (i + 1))) = s
    rw [ih]
    exact (nlIdx_split h).symm
termination_by s.length
decreasing_by
  have h0 := (nlIdx_some h).1
  simp only [List.length_drop]
  omega

theorem completeLines_no_nl (s : List Nat) :
    ∀ l ∈ completeLines s, (10 : Nat) ∉ l := by
  rcases h : nlIdx s with - | i
  · rw [completeLines_of_none h]; simp
  · rw [completeLines_of_some h]
    intro l hl
    rcases List.mem_cons.mp hl with rfl | hl
    · exact (nlIdx_some h).2.1
    · exact completeLines_no_nl (s.drop (i + 1)) l hl
termination_by s.length
decreasing_by
  have h0 : 0 < s.length := by
    have := (nlIdx_some h).1; omega
  simp only [List.length_drop]
  omega

theorem lineTail_no_nl (s : List Nat) : (10 : Nat) ∉ lineTail s := by
  rcases h : nlIdx s with - | i
  · rw [lineTail_of_none h]; exact nlIdx_eq_none.mp h
  · rw [lineTail_of_some h]
    exact lineTail_no_nl (s.drop (i + 1))
termination_by s.length
decreasing_by
  have h0 : 0 < s.length := by
    have := (nlIdx_some h).1; omega
  simp only [List.length_drop]
  omega

theorem completeLines_rejoin (ls : List (List Nat)) (t : List Nat)
    (hls : ∀ l ∈ ls, (10 : Nat) ∉ l) (ht : (10 : Nat) ∉ t) :
    completeLines (rejoin ls t) = ls ∧ lineTail (rejoin ls t) = t := by
  induction ls with
  | nil =>
    have h : nlIdx t = none := nlIdx_eq_none.mpr ht
    exact ⟨completeLines_of_none h, lineTail_of_none h⟩
  | cons l ls ih =>
    have hl : (10 : Nat) ∉ l := hls l (List.mem_cons_self _ _)
    have hls' : ∀ l' ∈ ls, (10 : Nat) ∉ l' :=
      fun l' hl' => hls l' (List.mem_cons_of_mem _ hl')
    obtain ⟨ih1, ih2⟩ := ih hls'
    have hre : rejoin (l :: ls) t = l ++ 10 :: rejoin ls t := rfl
    have hnl : nlIdx (rejoin (l :: ls) t) = some l.length := by
      rw [hre]; exact nlIdx_append_nl _ hl
    have htake : (rejoin (l :: ls) t).take l.length = l := by
      rw [hre]
      exact List.take_left l (10 :: rejoin ls t)
    have hdrop : (rejoin (l :: ls) t).drop (l.length + 1) = rejoin ls t := by
      rw [hre]
      have : l ++ 10 :: rejoin ls t = (l ++ [10]) ++ rejoin ls t := by simp
      rw [this]
      have hlen : (l ++ [10]).length = l.length + 1 := by simp
      rw [← hlen]
      exact List.drop_left _ _
    constructor
    · rw [completeLines_of_some hnl, htake, hdrop, ih1]
    · rw [lineTail_of_some hnl, hdrop, ih2]

theorem rejoin_length (ls : List (List Nat)) (t : List Nat) :
    (rejoin ls t).length = (ls.map List.length).sum + ls.length + t.length := by
  induction ls with
  | nil => simp [rejoin]
  | cons l ls ih =>
    show (l ++ 10 :: rejoin ls t).length = _
    simp [ih]
    omega

theorem scanLines_nil (find : Find) (closing : Bool) :
    scanLines find closing [] = (none, []) := by
  rw [scanLines]
  simp

theorem lineSearch_eq_none {find : Find} {ls : List (List Nat)} :
    lineSearch find ls = none ↔ ∀ l ∈ ls, find l = none := by
  induction ls with
  | nil => simp [lineSearch]
  | cons l ls ih =>
    cases h : find l with
    | some m => simp [lineSearch, h]
    | none => simp [lineSearch, h, ih]

theorem lineSearch_eq_some {find : Find} {ls : List (List Nat)}
    {m : MatchIdx} {l : List Nat} {rest : List (List Nat)}
    (h : lineSearch find ls = some (m, l, rest)) :
    ∃ pre, ls = pre ++ l :: rest ∧ (∀ l' ∈ pre, find l' = none) ∧
      find l = some m := by
  induction ls with
  | nil => simp [lineSearch] at h
  | cons l0 ls ih =>
    cases h0 : find l0 with
    | some m0 =>
      simp only [lineSearch, h0, Option.some.injEq, Prod.mk.injEq] at h
      obtain ⟨rfl, rfl, rfl⟩ := h
      exact ⟨[], rfl, by simp, h0⟩
    | none =>
      simp only [lineSearch, h0] at h
      obtain ⟨pre, rfl, hpre, hl⟩ := ih h
      exact ⟨l0 :: pre, rfl, by
        intro l' hl'
        rcases List.mem_cons.mp hl' with rfl | hl'
        · exact h0
        · exact hpre l' hl', hl⟩

/-- Characterization of the line-mode scan in non-draining mode: the
complete lines are tested in order; the first matching one is returned with
the lines after it (re-joined with the trailing segment) left in the
buffer; with no matching line, every complete line has been discarded and
only the trailing segment remains. -/
theorem scanLines_false_eq (find : Find) (s : List Nat) :
    scanLines find false s =
      match lineSearch find (completeLines s) with
      | some (m, l, rest) => (some (m, l), rejoin rest (lineTail s))
      | none => (none, lineTail s) := by
  by_cases hs : s = []
  · subst hs
    rw [scanLines_nil, completeLines_of_none (s := []) (by simp [nlIdx]),
      lineTail_of_none (s := []) (by simp [nlIdx])]
    simp [lineSearch]
  · rcases h : nlIdx s with - | i
    · rw [completeLines_of_none h, lineTail_of_none h]
      rw [scanLines]
      simp [hs, h, lineSearch]
    · rw [completeLines_of_some h, lineTail_of_some h]
      cases hm : find (s.take i) with
      | some m =>
        rw [scanLines]
        simp only [dif_neg hs, h, hm]
        simp [lineSearch, hm, rejoin_decomp (s.drop (i + 1))]
      | none =>
        rw [scanLines]
        simp only [dif_neg hs, h, hm]
        have ih := scanLines_false_eq find (s.drop (i + 1))
        rw [ih]
        simp [lineSearch, hm]
termination_by s.length
decreasing_by
  have h0 := (nlIdx_some h).1
  simp only [List.length_drop]
  omega

/-- The dispatch loop of `Write` in line mode, with enough fuel, hands off
exactly one `(match, line)` pair per complete line satisfying the pattern,
in buffer order, and leaves exactly the trailing unterminated segment in
the buffer. -/
theorem writeLoop_multi_le_cap (find : Find) (cap : Nat) :
    ∀ (fuel : Nat) (buf : List Nat) (acc ds : List (MatchIdx × List Nat))
      (buf' : List Nat),
      writeLoop find true cap fuel buf acc = some (ds, buf') →
      buf'.length ≤ cap := by
  intro fuel
  induction fuel with
  | zero => intro buf acc ds buf' h; simp [writeLoop] at h
  | succ f ih =>
    intro buf acc ds buf' h
    cases hfind : find buf with
    | none =>
      simp only [writeLoop] at h
      simp only [hasMatch, if_true, hfind] at h
      simp only [Option.some.injEq, Prod.mk.injEq] at h
      obtain ⟨-, rfl⟩ := h
      by_cases hc : buf.length > cap
      · simp [hc, List.length_drop]
        omega
      · simp [hc]
        omega
    | some m =>
      simp only [writeLoop] at h
      simp only [hasMatch, if_true, hfind] at h
      exact ih _ _ _ _ h

theorem writeLoop_multi_some (find : Find) (cap : Nat)
    (hprog : ProgressiveFind find) :
    ∀ (fuel : Nat) (buf : List Nat) (acc : List (MatchIdx × List Nat)),
      buf.length < fuel →
      ∃ r, writeLoop find true cap fuel buf acc = some r := by
  intro fuel
  induction fuel with
  | zero => intro buf acc h; omega
  | succ f ih =>
    intro buf acc hf
    cases hfind : find buf with
    | none =>
      refine ⟨(acc, if buf.length > cap
        then buf.drop (buf.length - cap) else buf), ?_⟩
      simp [writeLoop, hasMatch, hfind]
    | some m =>
      obtain ⟨hpos, hle⟩ := hprog buf m hfind
      have hlen : (buf.drop m.span.2).length < f := by
        simp only [List.length_drop]
        omega
      obtain ⟨r, hr⟩ :=
        ih (buf.drop m.span.2) (acc ++ [(m, buf.take m.span.2)]) hlen
      refine ⟨r, ?_⟩
      simp only [writeLoop]
      simp only [hasMatch, if_true, hfind]
      exact hr

theorem writeLoop_emptyFind (cap : Nat) :
    ∀ (fuel : Nat) (buf : List Nat) (acc : List (MatchIdx × List Nat)),
      writeLoop emptyFind true cap fuel buf acc = none := by
  intro fuel
  induction fuel with
  | zero => intro buf acc; simp [writeLoop]
  | succ f ih =>
    intro buf acc
    simp only [writeLoop]
    simp only [hasMatch, if_true, emptyFind]
    exact ih _ _

theorem writeLoop_line (find : Find) (cap : Nat) (s : List Nat)
    (acc : List (MatchIdx × List Nat)) (fuel : Nat) (hf : s.length < fuel) :
    writeLoop find false cap fuel s acc =
      some (acc ++ lineDispatches find (completeLines s), lineTail s) := by
  cases fuel with
  | zero => omega
  | succ f =>
    simp only [writeLoop, hasMatch, Bool.false_eq_true, if_false]
    rw [scanLines_false_eq]
    cases hls : lineSearch find (completeLines s) with
    | none =>
      have hnil : lineDispatches find (completeLines s) = [] := by
        simp only [lineDispatches, List.filterMap_eq_nil_iff]
        intro l hl
        simp [lineSearch_eq_none.mp hls l hl]
      simp [hnil]
    | some triple =>
      obtain ⟨m, l, rest⟩ := triple
      obtain ⟨pre, hsplit, hpre, hm⟩ := lineSearch_eq_some hls
      have hrest_nl : ∀ l' ∈ rest, (10 : Nat) ∉ l' := by
        intro l' hl'
        apply completeLines_no_nl s
        rw [hsplit]
        exact List.mem_append_right _ (List.mem_cons_of_mem _ hl')
      obtain ⟨hcl, hlt⟩ :=
        completeLines_rejoin rest (lineTail s) hrest_nl (lineTail_no_nl s)
      have hslen : s.length =
          ((completeLines s).map List.length).sum + (completeLines s).length +
            (lineTail s).length := by
        conv_lhs => rw [← rejoin_decomp s]
        exact rejoin_length _ _
      have hlen2 : (rejoin rest (lineTail s)).length < s.length := by
        rw [rejoin_length, hslen, hsplit]
        simp only [List.map_append, List.sum_append, List.length_append,
          List.map_cons, List.sum_cons, List.length_cons]
        omega
      have ih := writeLoop_line find cap (rejoin rest (lineTail s))
        (acc ++ [(m, l)]) f (by omega)
      rw [hcl, hlt] at ih
      have hdisp : lineDispatches find (completeLines s) =
          (m, l) :: lineDispatches find rest := by
        rw [hsplit]
        simp only [lineDispatches, List.filterMap_append, List.filterMap_cons,
          hm, Option.map_some']
        have : List.filterMap (fun l => (find l).map (fun m => (m, l))) pre
            = [] := by
          simp only [List.filterMap_eq_nil_iff]
          intro l' hl'
          simp [hpre l' hl']
        rw [this]
        rfl
      simp only [ih, hdisp]
      simp
termination_by s.length
decreasing_by
  exact hlen2

theorem takeWhile_append_of_all {p : Nat → Bool} :
    ∀ {l : List Nat} (r : List Nat), l.all p = true →
      (l ++ r).takeWhile p = l ++ r.takeWhile p := by
  intro l
  induction l with
  | nil => intro r h; rfl
  | cons c cs ih =>
    intro r h
    simp only [List.all_cons, Bool.and_eq_true] at h
    simp [List.takeWhile, h.1, ih r h.2]

theorem all_name_of_all_digit {l : List Nat} (h : l.all isDigitByte = true) :
    l.all isNameByte = true := by
  rw [List.all_eq_true] at h ⊢
  intro c hc
  have := h c hc
  simp only [isDigitByte, Bool.and_eq_true, decide_eq_true_eq] at this
  simp only [isNameByte, Bool.or_eq_true, Bool.and_eq_true, decide_eq_true_eq]
  exact Or.inl (Or.inl (Or.inl ⟨this.1, this.2⟩))

theorem extract_no_brace {c : Nat} {s : List Nat} (hc : c ≠ 123)
    (hname : (c :: s).all isNameByte = true) :
    extract (c :: s) = some (c :: s, numOf (c :: s), []) := by
  have htw : (c :: s).takeWhile isNameByte = c :: s := by
    have := takeWhile_append_of_all ([] : List Nat) hname
    simpa using this
  simp [extract, if_neg hc, htw, List.drop_length]

theorem extract_braced {name : List Nat} (h1 : name ≠ [])
    (h2 : name.all isNameByte = true) :
    extract (123 :: (name ++ [125])) = some (name, numOf name, []) := by
  have htw : (name ++ [125]).takeWhile isNameByte = name := by
    rw [takeWhile_append_of_all _ h2]
    simp [List.takeWhile, isNameByte]
  have hdrop : (name ++ [125]).drop name.length = [125] :=
    List.drop_left name [125]
  simp [extract, htw, hdrop, h1]

theorem expand_of_none {names : List (List Nat)} {src : List Nat}
    {m : MatchIdx} {t : List Nat} (h : splitDollar t = none) :
    expand names src m t = t := by
  rw [expand]
  split
  · rfl
  · next b a heq => rw [h] at heq; cases heq

theorem expand_nil {names : List (List Nat)} {src : List Nat} {m : MatchIdx} :
    expand names src m [] = [] :=
  expand_of_none (by simp [splitDollar])

theorem expand_of_extract {names : List (List Nat)} {src : List Nat}
    {m : MatchIdx} {t b a name : List Nat} {num : Int} {rest : List Nat}
    (h : splitDollar t = some (b, a)) (ha : a.head? ≠ some 36)
    (hx : extract a = some (name, num, rest)) :
    expand names src m t =
      b ++ (if 0 ≤ num then numSub src m.idx num.toNat
            else namedSub src name names m.idx) ++ expand names src m rest := by
  rw [expand]
  split
  · next heq => rw [h] at heq; cases heq
  · next b' a' heq =>
    rw [h] at heq
    injection heq with heq
    injection heq with hb hA
    subst hb
    subst hA
    rw [if_neg ha]
    split
    · next heq2 => rw [hx] at heq2; cases heq2
    · next nm num' rest' heq2 =>
      rw [hx] at heq2
      injection heq2 with heq2
      injection heq2 with h1 h2
      injection h2 with h2 h3
      subst h1
      subst h2
      subst h3
      rfl

theorem namedSub_head {src name : List Nat} {ns2 : List (List Nat)}
    {idx : List (Option (Nat × Nat))} {p : Nat × Nat}
    (h : idx.head? = some (some p)) :
    namedSub src name (name :: ns2) idx = slice src p := by
  simp [namedSub, h]

theorem namedSub_first {src name : List Nat} :
    ∀ (ns1 ns2 : List (List Nat)) (idx : List (Option (Nat × Nat)))
      (p : Nat × Nat), name ∉ ns1 → idx[ns1.length]? = some (some p) →
      namedSub src name (ns1 ++ name :: ns2) idx = slice src p := by
  intro ns1
  induction ns1 with
  | nil =>
    intro ns2 idx p h1 h2
    simp only [List.length_nil] at h2
    rw [← List.head?_eq_getElem? idx] at h2
    exact namedSub_head h2
  | cons n ns1 ih =>
    intro ns2 idx p h1 h2
    have hn : n ≠ name := fun h => h1 (h ▸ List.mem_cons_self _ _)
    have htail : idx.tail[ns1.length]? = some (some p) := by
      cases idx with
      | nil => simp at h2
      | cons x xs => simpa using h2
    have step : namedSub src name ((n :: ns1) ++ name :: ns2) idx =
        namedSub src name (ns1 ++ name :: ns2) idx.tail := by
      simp only [List.cons_append, namedSub, if_neg hn]
      rfl
    rw [step]
    exact ih ns2 idx.tail p (fun hm => h1 (List.mem_cons_of_mem _ hm)) htail

theorem slotReach_invariant {s : SlotState} (h : SlotReach s) :
    s.slot = s.running ∧ s.running ≤ 1 := by
  induction h with
  | init => exact ⟨rfl, by decide⟩
  | step hr hs ih =>
    obtain ⟨ih1, ih2⟩ := ih
    cases hs with
    | spawn h0 => constructor <;> simp <;> omega
    | finish h1 h2 => constructor <;> simp <;> omega

theorem trigStep_some (cap : Nat) (t : TrigState) (c : List Nat)
    (h : t.conf.multi = true → ProgressiveFind t.conf.find) :
    ∃ t', trigStep cap t c = some t' ∧ t'.conf = t.conf := by
  have hw : ∃ r, triggerWrite t.conf.find t.conf.multi cap t.buf c = some r := by
    cases hm : t.conf.multi with
    | false =>
      exact ⟨_, writeLoop_line t.conf.find cap (t.buf ++ c) []
        ((t.buf ++ c).length + 1) (by omega)⟩
    | true =>
      exact writeLoop_multi_some t.conf.find cap (h hm)
        ((t.buf ++ c).length + 1) (t.buf ++ c) [] (by omega)
  obtain ⟨r, hr⟩ := hw
  refine ⟨⟨t.conf, r.2, t.log ++ r.1.map (fun d => (d, t.conf.actionOk d))⟩,
    ?_, rfl⟩
  simp [trigStep, hr]

theorem teeStep_some (cap : Nat) (c : List Nat) :
    ∀ (ts : List TrigState),
      (∀ t ∈ ts, t.conf.multi = true → ProgressiveFind t.conf.find) →
      ∃ ts', teeStep cap c ts = some ts' ∧
        ts'.map TrigState.conf = ts.map TrigState.conf := by
  intro ts
  induction ts with
  | nil => intro h; exact ⟨[], rfl, rfl⟩
  | cons t ts ih =>
    intro h
    obtain ⟨t', ht', hconf⟩ :=
      trigStep_some cap t c (h t (List.mem_cons_self _ _))
    obtain ⟨ts', hts', hconfs⟩ :=
      ih (fun t0 ht0 => h t0 (List.mem_cons_of_mem _ ht0))
    refine ⟨t' :: ts', ?_, ?_⟩
    · simp [teeStep, ht', hts']
    · simp [hconf, hconfs]

theorem copyRun_complete (cap : Nat) :
    ∀ (cs : List (List Nat)) (ts : List TrigState) (out : List Nat),
      (∀ t ∈ ts, t.conf.multi = true → ProgressiveFind t.conf.find) →
      (copyRun cap ts out cs).1 = out ++ cs.flatten ∧
        (copyRun cap ts out cs).2.2 = true := by
  intro cs
  induction cs with
  | nil =>
    intro ts out h
    simp [copyRun]
  | cons c cs ih =>
    intro ts out h
    obtain ⟨ts', hts', hconfs⟩ := teeStep_some cap c ts h
    have h' : ∀ t' ∈ ts', t'.conf.multi = true → ProgressiveFind t'.conf.find := by
      intro t' ht'
      have : t'.conf ∈ ts'.map TrigState.conf := List.mem_map_of_mem _ ht'
      rw [hconfs] at this
      obtain ⟨t0, ht0, hc0⟩ := List.mem_map.mp this
      rw [← hc0]
      exact h t0 ht0
    simp only [copyRun, hts']
    have := ih ts' (out ++ c) h'
    simpa [List.append_assoc] using this

/-- C2: for a line-mode trigger, the matcher extracts the complete lines
from the buffer head in order (terminator consumed but excluded from the
line), tests each against the pattern, returns the first matching line —
with offsets relative to that line, since the pattern is applied to the
line alone — permanently discards every scanned non-matching line, and
stops at the first match or when no complete line remains; `Write`'s loop
therefore hands off exactly one dispatch per line satisfying the pattern,
leaving only the trailing unterminated segment buffered. -/
theorem C2_line_mode (find : Find) (cap : Nat) (s : List Nat) :
    hasMatch find false cap false s =
      (match lineSearch find (completeLines s) with
       | some (m, l, rest) => (some (m, l), rejoin rest (lineTail s))
       | none => (none, lineTail s)) ∧
    writeLoop find false cap (s.length + 1) s [] =
      some (lineDispatches find (completeLines s), lineTail s) ∧
    (∀ l ∈ completeLines s, (10 : Nat) ∉ l) ∧
    rejoin (completeLines s) (lineTail s) = s := by
  refine ⟨?_, ?_, completeLines_no_nl s, rejoin_decomp s⟩
  · show scanLines find false s = _
    exact scanLines_false_eq find s
  · simpa using writeLoop_line find cap s [] (s.length + 1) (by omega)

/-- C3: for a multi-line-capable trigger, a match removes exactly the
bytes from the buffer start through the match's end offset `m[1]`
(`t.buf.Next(m[1])`); the consumed prefix — leading unmatched bytes
included — is returned as the text and never offered to a later scan. -/
theorem C3_multi_consume (find : Find) (cap : Nat) (closing : Bool)
    (buf : List Nat) (m : MatchIdx) (hm : find buf = some m)
    (hwf : m.span.2 ≤ buf.length) :
    hasMatch find true cap closing buf =
      (some (m, buf.take m.span.2), buf.drop m.span.2) ∧
    buf.take m.span.2 ++ buf.drop m.span.2 = buf ∧
    (buf.take m.span.2).length = m.span.2 := by
  refine ⟨?_, List.take_append_drop _ _, ?_⟩
  · simp [hasMatch, hm]
  · simp only [List.length_take]
    omega

/-- C3 witness: a match with end offset 2 on buffer `[7, 8, 9]` consumes
`[7, 8]` (including the unmatched leading byte 7) and leaves `[9]`. -/
theorem C3_witness :
    hasMatch (fun _ => some ⟨(1, 2), []⟩) true 5 false [7, 8, 9] =
      (some (⟨(1, 2), []⟩, [7, 8]), [9]) := by
  have h := C3_multi_consume (fun _ => some ⟨(1, 2), []⟩) 5 false [7, 8, 9]
    ⟨(1, 2), []⟩ rfl (by decide)
  simpa using h.1

/-- C4: the dispatch slot (`sync` channel of capacity 1) keeps at most one
action execution outstanding per trigger: in every reachable slot state
the number of running actions is at most one and equals the token count,
and a new action can be spawned (the channel send of `dispatch` can
complete) only when no action is running — a second match found while an
action runs waits for it to finish. -/
theorem C4_single_action {s : SlotState} (h : SlotReach s) :
    s.running ≤ 1 ∧ s.slot = s.running ∧
    (∀ s', SlotStep s .spawn s' → s.running = 0) := by
  obtain ⟨h1, h2⟩ := slotReach_invariant h
  refine ⟨h2, h1, ?_⟩
  intro s' hs
  cases hs with
  | spawn h0 => omega

/-- C4 witness: the state reached after one spawn (one token, one running
action) satisfies the invariant. -/
theorem C4_witness :
    SlotReach (⟨1, 1⟩ : SlotState) ∧
    ((⟨1, 1⟩ : SlotState).running ≤ 1 ∧
      (⟨1, 1⟩ : SlotState).slot = (⟨1, 1⟩ : SlotState).running ∧
      (∀ s', SlotStep ⟨1, 1⟩ .spawn s' →
        (⟨1, 1⟩ : SlotState).running = 0)) := by
  have hr : SlotReach (⟨1, 1⟩ : SlotState) :=
    SlotReach.step SlotReach.init (SlotStep.spawn ⟨0, 0⟩ rfl)
  exact ⟨hr, C4_single_action hr⟩

/-- C5: for a multi-line trigger, whenever the matcher reports no match the
bytes in excess of the `-buf` cap are dropped from the buffer head (oldest
first): the buffer becomes exactly `drop (length - cap)` of itself; and
after every returning `Write` of a multi-line trigger the buffer length is
at most the cap. -/
theorem C5_cap_trim (find : Find) (cap : Nat) (closing : Bool)
    (buf : List Nat) :
    (find buf = none →
      hasMatch find true cap closing buf =
        (none, buf.drop (buf.length - cap))) ∧
    (∀ fuel acc ds buf',
      writeLoop find true cap fuel buf acc = some (ds, buf') →
      buf'.length ≤ cap) := by
  constructor
  · intro h
    simp only [hasMatch, if_true, h]
    by_cases hc : buf.length > cap
    · simp [hc]
    · have h0 : buf.length - cap = 0 := by omega
      simp [hc, h0]
  · intro fuel acc ds buf' h
    exact writeLoop_multi_le_cap find cap fuel buf acc ds buf' h

/-- C5 witness: cap 2, buffer `[1, 2, 3]`, no match: the head byte is
dropped, and the `Write` loop ends with a buffer within the cap. -/
theorem C5_witness :
    hasMatch (fun _ => none) true 2 false [1, 2, 3] = (none, [2, 3]) ∧
    ([2, 3] : List Nat).length ≤ 2 := by
  have h := C5_cap_trim (fun _ => none) 2 false [1, 2, 3]
  exact ⟨by simpa using h.1 rfl, h.2 1 [] [] [2, 3] (by decide)⟩

/-- C8 counterexample: in multi-line mode, a pattern matching the empty
string (the real `(?m)^`) reports a zero-length match on the EMPTY buffer
(`FindSubmatchIndex` of the empty input returns `[0, 0]`), so `dispatch`
fires an action with empty text instead of reporting no match. -/
theorem C8_counterexample :
    hasMatch emptyFind true 65536 false [] =
      (some (⟨(0, 0), []⟩, []), []) := by
  decide

/-- C8 amended: the matcher on an empty buffer reports no match, leaves
the buffer unchanged and dispatches nothing — unconditionally in line
mode, draining or not (the scan loop is never entered), and in multi-line
mode whenever the pattern does not match the empty string; a multi-line
pattern matching the empty string instead reports a zero-length match on
the empty buffer. -/
theorem C8_empty_buffer (find : Find) (cap : Nat) (closing : Bool) :
    hasMatch find false cap closing [] = (none, []) ∧
    (find [] = none → hasMatch find true cap closing [] = (none, [])) := by
  constructor
  · show scanLines find closing [] = _
    exact scanLines_nil find closing
  · intro h
    simp [hasMatch, h]

/-- C8 witness: a never-matching oracle on the empty buffer, draining
mode, both line and multi-line. -/
theorem C8_witness :
    hasMatch (fun _ => none) false 7 true [] = (none, []) ∧
    hasMatch (fun _ => none) true 7 true [] = (none, []) := by
  have h := C8_empty_buffer (fun _ => none) 7 true
  exact ⟨h.1, h.2 rfl⟩

/-- C9 counterexample: for a multi-line pattern matching the empty string
(the real `(?m)^`), every match has end offset 0, `t.buf.Next(0)` removes
nothing, the pure matcher's answer never changes, and the dispatch loop of
`Write` never reports no match: no amount of fuel makes the model return,
i.e. the Go loop runs forever. -/
theorem C9_counterexample :
    ¬ LoopTerminates emptyFind true 65536 [97] := by
  rintro ⟨fuel, r, hr⟩
  rw [writeLoop_emptyFind] at hr
  cases hr

/-- C9 amended: `Write`'s invoke-and-dispatch loop terminates — always in
line mode (each extracted line consumes at least its terminator), and in
multi-line mode whenever every reported match has a positive end offset
(any pattern that cannot match the empty string); `Write` then returns
after at most one dispatch per buffered byte, with all available matches
handed off.  A multi-line pattern that can match the empty string makes
the loop run forever. -/
theorem C9_write_terminates (find : Find) (multi : Bool) (cap : Nat)
    (buf chunk : List Nat) (h : multi = true → ProgressiveFind find) :
    ∃ r, triggerWrite find multi cap buf chunk = some r := by
  cases hm : multi with
  | false =>
    exact ⟨_, writeLoop_line find cap (buf ++ chunk) []
      ((buf ++ chunk).length + 1) (by omega)⟩
  | true =>
    exact writeLoop_multi_some find cap (h hm) ((buf ++ chunk).length + 1)
      (buf ++ chunk) [] (by omega)

/-- C9 witness: a never-matching multi-line trigger's `Write` returns. -/
theorem C9_witness :
    (∃ r, triggerWrite (fun _ => none) true 9 [] [10] = some r) ∧
    triggerWrite (fun _ => none) true 9 [] [10] = some ([], [10]) := by
  refine ⟨C9_write_terminates (fun _ => none) true 9 [] [10]
    (fun hm s m hf => by simp at hf), by decide⟩

/-- C10: only byte 0x0A terminates lines: the tested line is exactly the
bytes strictly before the next 0x0A, so a trailing 0x0D of CRLF input
stays in the tested line, in the matched text, and in a pipe-mode action's
stdin payload; and a buffer containing no 0x0A (whatever other bytes,
0x0D included) yields no line in non-draining mode and stays unchanged. -/
theorem C10_lf_only (find : Find) (cap : Nat) (l rest s : List Nat)
    (m : MatchIdx) (hl : (10 : Nat) ∉ l) (hm : find l = some m)
    (hs : (10 : Nat) ∉ s) (t : ActionTemplate) (names : List (List Nat))
    (hp : t.isPipe = true) :
    hasMatch find false cap false (l ++ 10 :: rest) = (some (m, l), rest) ∧
    hasMatch find false cap false s = (none, s) ∧
    (fire t names m l).stdin = some l := by
  refine ⟨?_, ?_, by simp [fire, hp]⟩
  · show scanLines find false (l ++ 10 :: rest) = _
    rw [scanLines]
    have hne : l ++ 10 :: rest ≠ [] := by simp
    rw [dif_neg hne, nlIdx_append_nl rest hl]
    have ht : (l ++ 10 :: rest).take l.length = l := List.take_left l (10 :: rest)
    have hd : (l ++ 10 :: rest).drop (l.length + 1) = rest := by
      have he : l ++ 10 :: rest = (l ++ [10]) ++ rest := by simp
      rw [he]
      have hlen : (l ++ [10]).length = l.length + 1 := by simp
      rw [← hlen]
      exact List.drop_left _ _
    simp [ht, hd, hm]
  · show scanLines find false s = _
    by_cases hse : s = []
    · subst hse
      exact scanLines_nil find false
    · rw [scanLines, dif_neg hse, (nlIdx_eq_none.mpr hs : nlIdx s = none)]
      simp

/-- C1 counterexample: with one trigger whose multi-line pattern matches
the empty string (the real pattern `(?m)^`), the dispatch loop of the
first `Write` never returns, `io.Copy` stalls, and the primary output
permanently misses every later chunk: on input chunks `"a"`, `"b"` the
output stays `[97]`, not the full input `[97, 98]`. -/
theorem C1_counterexample :
    (copyRun 65536 [emptyTrig] [] [[97], [98]]).1 = [97] ∧
    (copyRun 65536 [emptyTrig] [] [[97], [98]]).2.2 = false ∧
    [97] ≠ ([[97], [98]] : List (List Nat)).flatten := by
  have h : teeStep 65536 [97] [emptyTrig] = none := by
    simp [teeStep, trigStep, emptyTrig, triggerWrite, writeLoop_emptyFind]
  refine ⟨?_, ?_, by decide⟩
  · simp [copyRun, h]
  · simp [copyRun, h]

/-- C1 amended: whenever no multi-line trigger's pattern can match without
consuming input (every reported match has a positive end offset — any
pattern that cannot match the empty string), the copy runs to completion
and the bytes written to the primary output equal the input byte-for-byte,
for every number of triggers, matching or not, and regardless of the
success or failure of any action (the `actionOk` oracles inside `ts` are
arbitrary and only logged). -/
theorem C1_pass_through (cap : Nat) (ts : List TrigState)
    (chunks : List (List Nat))
    (h : ∀ t ∈ ts, t.conf.multi = true → ProgressiveFind t.conf.find) :
    (copyRun cap ts [] chunks).1 = chunks.flatten ∧
    (copyRun cap ts [] chunks).2.2 = true := by
  have hc := copyRun_complete cap chunks ts [] h
  simpa using hc

/-- C1 witness: one never-matching multi-line trigger, two chunks. -/
theorem C1_witness :
    (copyRun 3 [⟨⟨fun _ => none, true, fun _ => true⟩, [], []⟩] []
      [[97], [98]]).1 = [97, 98] := by
  have h := C1_pass_through 3
    [⟨⟨fun _ => none, true, fun _ => true⟩, [], []⟩] [[97], [98]] (by
      intro t ht hm s m0 hf
      rw [List.mem_singleton] at ht
      subst ht
      simp at hf)
  exact h.1.trans (by decide)

/-- C6: for every dispatched match, each argument handed to the action is
Go's `Expand` of the corresponding template — pure textual substitution,
no shell interpretation: a digit-string placeholder denoting `k` yields
group `k`'s text (group 0 being the whole match given by the overall
span), or the empty string when the group is absent or did not
participate; a braced non-numeric name resolves by the group's name. -/
theorem C6_interpolation (names : List (List Nat)) (tpls : List (List Nat))
    (cmd : List Nat) (pipe : Bool) (src : List Nat) (m : MatchIdx)
    (ds : List Nat) (k : Nat)
    (hds1 : ds ≠ []) (hds2 : ds.all isDigitByte = true)
    (hds3 : numOf ds = (k : Int))
    (name : List Nat) (hn1 : name ≠ []) (hn2 : name.all isNameByte = true)
    (hn3 : numOf name = -1) :
    (fire ⟨cmd, tpls, pipe⟩ names m src).args =
      tpls.map (expand names src m) ∧
    expand names src m (36 :: ds) = numSub src m.idx k ∧
    numSub src m.idx 0 = slice src m.span ∧
    (∀ p, m.idx[k]? = some (some p) → numSub src m.idx k = slice src p) ∧
    (m.idx[k]? = some none → numSub src m.idx k = []) ∧
    (m.idx[k]? = none → numSub src m.idx k = []) ∧
    expand names src m (36 :: 123 :: (name ++ [125])) =
      namedSub src name names m.idx ∧
    (∀ ns1 ns2 p, names = ns1 ++ name :: ns2 → name ∉ ns1 →
      m.idx[ns1.length]? = some (some p) →
      namedSub src name names m.idx = slice src p) := by
  obtain ⟨d, ds', rfl⟩ : ∃ d ds', ds = d :: ds' := by
    cases ds with
    | nil => exact absurd rfl hds1
    | cons d ds' => exact ⟨d, ds', rfl⟩
  have hd : isDigitByte d = true := by
    have h0 := hds2
    simp only [List.all_cons, Bool.and_eq_true] at h0
    exact h0.1
  obtain ⟨hd1, hd2⟩ : 48 ≤ d ∧ d ≤ 57 := by
    simpa [isDigitByte] using hd
  refine ⟨rfl, ?_, ?_, ?_, ?_, ?_, ?_, ?_⟩
  · have hsd : splitDollar (36 :: d :: ds') = some ([], d :: ds') := by
      simp [splitDollar]
    have hhead : (d :: ds').head? ≠ some 36 := by
      simp
      omega
    have hx : extract (d :: ds') = some (d :: ds', numOf (d :: ds'), []) :=
      extract_no_brace (by omega) (all_name_of_all_digit hds2)
    rw [expand_of_extract hsd hhead hx, expand_nil, hds3,
      if_pos (Int.natCast_nonneg k)]
    simp
  · simp [numSub, MatchIdx.idx]
  · intro p hp
    simp [numSub, hp]
  · intro hp
    simp [numSub, hp]
  · intro hp
    simp [numSub, hp]
  · have hsd : splitDollar (36 :: 123 :: (name ++ [125])) =
        some ([], 123 :: (name ++ [125])) := by
      simp [splitDollar]
    have hhead : (123 :: (name ++ [125])).head? ≠ some 36 := by simp
    have hx := extract_braced hn1 hn2
    rw [expand_of_extract hsd hhead hx, expand_nil, hn3,
      if_neg (by decide : ¬(0 : Int) ≤ -1)]
    simp
  · intro ns1 ns2 p h1 h2 h3
    subst h1
    exact namedSub_first ns1 ns2 m.idx p h2 h3

/-- C6 witness: names `["", "g"]`, source text `"hij"`, overall span
(0, 3), group 1 = (1, 2): the templates `$1` and `${g}` both expand to
`"i"` (byte 105). -/
theorem C6_witness :
    expand [[], [103]] [104, 105, 106] ⟨(0, 3), [some (1, 2)]⟩ [36, 49] =
      [105] ∧
    expand [[], [103]] [104, 105, 106] ⟨(0, 3), [some (1, 2)]⟩
      (36 :: 123 :: ([103] ++ [125])) = [105] := by
  have h := C6_interpolation [[], [103]] [] [] false [104, 105, 106]
    ⟨(0, 3), [some (1, 2)]⟩ [49] 1 (by decide) (by decide) (by decide)
    [103] (by decide) (by decide) (by decide)
  constructor
  · rw [h.2.1, h.2.2.2.1 (1, 2) (by decide)]
    decide
  · rw [h.2.2.2.2.2.2.1,
      h.2.2.2.2.2.2.2 [[]] [] (1, 2) rfl (by decide) (by decide)]
    decide

/-- C7 counterexample: a pipe-mode trigger whose argument template is `$0`
receives the matched text both as the stdin payload and as a member of the
substituted argument list: with matched text `"x"` (byte 120) and match
span (0, 1), the arguments are `[[120]]`, which contains the text. -/
theorem C7_counterexample :
    (fire dollarZeroPipe [[]] ⟨(0, 1), []⟩ [120]).stdin = some [120] ∧
    [120] ∈ (fire dollarZeroPipe [[]] ⟨(0, 1), []⟩ [120]).args := by
  have he : expand [[]] [120] ⟨(0, 1), []⟩ [36, 48] = [120] := by
    rw [@expand_of_extract [[]] [120] ⟨(0, 1), []⟩ [36, 48] [] [48] [48] 0 []
      (by decide) (by decide) (by decide), expand_nil]
    decide
  exact ⟨rfl, by simp [fire, dollarZeroPipe, he]⟩

/-- C7 amended: pipe mode delivers exactly the raw matched text as the
stdin payload and adds nothing to the argument list: the substituted
arguments are exactly the expanded templates — identical to what the same
templates produce without the pipe flag — so the matched text appears
among the arguments only when a template itself expands to it. -/
theorem C7_pipe_mode (t : ActionTemplate) (names : List (List Nat))
    (m : MatchIdx) (text : List Nat) (hp : t.isPipe = true) :
    (fire t names m text).stdin = some text ∧
    (fire t names m text).args = t.args.map (expand names text m) ∧
    (fire t names m text).args =
      (fire ⟨t.cmd, t.args, false⟩ names m text).args := by
  exact ⟨by simp [fire, hp], rfl, rfl⟩

/-- C7 witness: the pipe-mode template delivers its matched text on
stdin. -/
theorem C7_witness :
    (fire dollarZeroPipe [[]] ⟨(0, 1), []⟩ [121]).stdin = some [121] :=
  (C7_pipe_mode dollarZeroPipe [[]] ⟨(0, 1), []⟩ [121] rfl).1

/-- C10 witness: CRLF-terminated input `"x\r\n" ++ "y"`: the tested (and
matched, and piped) text is `"x\r"` with the 0x0D retained; `"z\r"`
without a newline yields nothing. -/
theorem C10_witness :
    hasMatch (fun s => if s = [120, 13] then some ⟨(0, 2), []⟩ else none)
      false 4 false [120, 13, 10, 121] =
      (some (⟨(0, 2), []⟩, [120, 13]), [121]) ∧
    hasMatch (fun s => if s = [120, 13] then some ⟨(0, 2), []⟩ else none)
      false 4 false [122, 13] = (none, [122, 13]) ∧
    (fire dollarZeroPipe [[]] ⟨(0, 2), []⟩ [120, 13]).stdin =
      some [120, 13] := by
  have h := C10_lf_only
    (fun s => if s = [120, 13] then some ⟨(0, 2), []⟩ else none) 4
    [120, 13] [121] [122, 13] ⟨(0, 2), []⟩ (by decide) (by decide)
    (by decide) dollarZeroPipe [[]] rfl
  simpa using h

end Tea
